import Mathlib

set_option maxRecDepth 8192

/-!
Verification of the kt topic tool against its specification.

Part 1 embeds the partition hasher of src/common.go (hashCode, kafkaAbs,
hashCodePartition).  Part 2 embeds readTopic of src/topic.go.  Part 3 models
the concurrent metadata pipeline of src/topic.go (run, the worker body
topicCmd.print, and the serializer task) as a labelled transition system.
Part 4 models the topic-name filtering of run.
-/

namespace KT

/-- Reduce an integer to the 32-bit two's-complement signed range, the effect
of Go int32 arithmetic after every operation. -/
def wrap32 (x : Int) : Int := (x + 2 ^ 31) % 2 ^ 32 - 2 ^ 31

/-- Embedding of Go unicode/utf16.EncodeRune: the surrogate pair for a rune
outside the BMP, and (U+FFFD, U+FFFD) when the rune needs no encoding or is
not a valid code point. -/
def encodeRune (r : Nat) : Nat × Nat :=
  if r < 0x10000 ∨ 0x10FFFF < r then (0xFFFD, 0xFFFD)
  else (0xD800 + (r - 0x10000) / 0x400, 0xDC00 + (r - 0x10000) % 0x400)

/-- One iteration of the loop body of hashCode, src/common.go lines 76-83.
Go ranges over the string's runes; `r1 == 0xfffd && r1 == r2` detects a rune
that EncodeRune refused to split, i.e. a BMP rune. -/
def hashStep (hc : Int) (c : Char) : Int :=
  let p := encodeRune c.toNat
  if p.1 = 0xFFFD ∧ p.1 = p.2 then wrap32 (hc * 31 + c.toNat)
  else wrap32 (wrap32 (hc * 31 + p.1) * 31 + p.2)

/-- Embedding of hashCode, src/common.go lines 75-85. -/
def hashCode (s : List Char) : Int := s.foldl hashStep 0

/-- Embedding of kafkaAbs, src/common.go lines 87-96. -/
def kafkaAbs (i : Int) : Int :=
  if i = -2147483648 then 0
  else if i < 0 then i * -1
  else i

/-- Embedding of hashCodePartition, src/common.go lines 98-104.  Go's `%` on
int32 is truncated division remainder, `Int.tmod`. -/
def hashCodePartition (key : List Char) (partitions : Int) : Int :=
  if partitions ≤ 0 then -1
  else Int.tmod (kafkaAbs (hashCode key)) partitions

/-- The UTF-16 code unit sequence of one character, as the spec describes it:
one unit for a BMP code point, high then low surrogate otherwise. -/
def utf16CodeUnits (c : Char) : List Nat :=
  if c.toNat < 0x10000 then [c.toNat]
  else [0xD800 + (c.toNat - 0x10000) / 0x400, 0xDC00 + (c.toNat - 0x10000) % 0x400]

/-- One accumulation step of the spec's hash: hash = hash*31 + codeUnit in
32-bit signed arithmetic. -/
def hashSpecStep (hc : Int) (u : Nat) : Int := wrap32 (hc * 31 + u)

/-- The spec's description of the hash: fold hash*31 + codeUnit over the
string's UTF-16 code unit sequence, one step per code unit. -/
def hashCodeSpec (s : List Char) : Int :=
  ((s.map utf16CodeUnits).flatten).foldl hashSpecStep 0

theorem char_toNat_lt (c : Char) : c.toNat < 0x110000 := by
  rcases c.valid with h | h
  · exact Nat.lt_trans h (by decide)
  · exact h.2

theorem hashStep_eq_foldl (hc : Int) (c : Char) :
    hashStep hc c = (utf16CodeUnits c).foldl hashSpecStep hc := by
  by_cases h : c.toNat < 0x10000
  · simp [hashStep, encodeRune, utf16CodeUnits, hashSpecStep, h]
  · have hub : c.toNat ≤ 0x10FFFF := Nat.lt_succ_iff.mp (char_toNat_lt c)
    have hq : (c.toNat - 0x10000) / 0x400 ≤ 0x3FF := by
      have : c.toNat - 0x10000 ≤ 0xFFFFF := by omega
      calc (c.toNat - 0x10000) / 0x400 ≤ 0xFFFFF / 0x400 :=
            Nat.div_le_div_right this
        _ = 0x3FF := by decide
    have hcond : ¬ (c.toNat < 0x10000 ∨ 0x10FFFF < c.toNat) := by omega
    have hne : ¬ (0xD800 + (c.toNat - 0x10000) / 0x400 = 0xFFFD ∧
        0xD800 + (c.toNat - 0x10000) / 0x400 = 0xDC00 + (c.toNat - 0x10000) % 0x400) := by
      intro hcontr
      omega
    simp only [hashStep, encodeRune, utf16CodeUnits, hashSpecStep, if_neg hcond, if_neg h,
      if_neg hne, List.foldl_cons, List.foldl_nil]

theorem foldl_hashStep_eq (s : List Char) : ∀ hc : Int,
    s.foldl hashStep hc = ((s.map utf16CodeUnits).flatten).foldl hashSpecStep hc := by
  induction s with
  | nil => intro hc; rfl
  | cons c rest ih =>
      intro hc
      simp only [List.foldl_cons, List.map_cons, List.flatten_cons, List.foldl_append]
      rw [hashStep_eq_foldl, ih]

/-- Claim C1: hashCode folds hash = hash*31 + codeUnit over the string's
UTF-16 code unit sequence — one accumulation step per BMP code point, two
steps (high then low surrogate) per code point outside the BMP — and in
particular the empty string hashes to 0 and "a" hashes to 97. -/
theorem hashCode_matches_utf16_fold :
    (∀ s : List Char, hashCode s = hashCodeSpec s) ∧
    hashCode [] = 0 ∧ hashCode ['a'] = 97 :=
  ⟨fun s => foldl_hashStep_eq s 0, rfl, by decide⟩

theorem kafkaAbs_nonneg (i : Int) : 0 ≤ kafkaAbs i := by
  unfold kafkaAbs
  split
  · exact le_refl 0
  · split
    · omega
    · omega

/-- Claim C2: for every key and every partition count n > 0,
0 ≤ hashCodePartition key n < n. -/
theorem hashCodePartition_in_range (key : List Char) (n : Int) (h : 0 < n) :
    0 ≤ hashCodePartition key n ∧ hashCodePartition key n < n := by
  unfold hashCodePartition
  rw [if_neg (by omega)]
  exact ⟨Int.tmod_nonneg n (kafkaAbs_nonneg _), Int.tmod_lt_of_pos _ h⟩

theorem hashCodePartition_in_range_witness :
    0 < (3 : Int) ∧ 0 ≤ hashCodePartition ['a'] 3 ∧ hashCodePartition ['a'] 3 < 3 :=
  ⟨by decide, hashCodePartition_in_range ['a'] 3 (by decide)⟩

/-- Claim C3: kafkaAbs maps the minimum 32-bit signed integer -2147483648 to
0, and consequently every key whose hash is exactly -2147483648 is assigned
partition 0 for every positive partition count. -/
theorem kafkaAbs_min_to_partition_zero :
    kafkaAbs (-2147483648) = 0 ∧
    ∀ (key : List Char) (n : Int), 0 < n →
      hashCode key = -2147483648 → hashCodePartition key n = 0 := by
  refine ⟨by decide, fun key n hn hh => ?_⟩
  unfold hashCodePartition
  rw [if_neg (by omega), hh, show kafkaAbs (-2147483648) = 0 from by decide]
  exact Int.zero_tmod n

theorem kafkaAbs_min_to_partition_zero_witness :
    0 < (7 : Int) ∧ hashCode "polygenelubricants".data = -2147483648 ∧
      hashCodePartition "polygenelubricants".data 7 = 0 :=
  ⟨by decide, by decide, kafkaAbs_min_to_partition_zero.2 "polygenelubricants".data 7
    (by decide) (by decide)⟩

/-- Claim C4: hashCodePartition returns the sentinel -1 exactly when the
partition count is non-positive (including 0 and -5); for positive counts it
never returns -1. -/
theorem hashCodePartition_sentinel (key : List Char) (n : Int) :
    hashCodePartition key n = -1 ↔ n ≤ 0 := by
  unfold hashCodePartition
  by_cases h : n ≤ 0
  · simp [h]
  · rw [if_neg h]
    have h0 : 0 ≤ Int.tmod (kafkaAbs (hashCode key)) n :=
      Int.tmod_nonneg n (kafkaAbs_nonneg _)
    constructor
    · intro he; omega
    · intro hc; omega

/-! ### Part 2: the topic data model and readTopic of src/topic.go -/

/-- Which offset readTopic requests: sarama.OffsetOldest or
sarama.OffsetNewest. -/
inductive OffsetKind
  | oldest
  | newest
  deriving DecidableEq

/-- Embedding of the partition struct, src/topic.go lines 44-51.  A Go nil
slice (the zero value, absent from the JSON output through omitempty) is
Option.none; a slice that was appended to is some. -/
structure partition where
  Id : Int
  OldestOffset : Int
  NewestOffset : Int
  Leader : String
  Replicas : Option (List Int)
  ISRs : Option (List Int)
  deriving DecidableEq

/-- Embedding of the topic struct, src/topic.go lines 39-42.  Partitions is
a Go slice serialized with omitempty: the nil slice (field absent) is none. -/
structure topic where
  Name : String
  Partitions : Option (List partition)
  deriving DecidableEq

/-- Go append on a possibly-nil slice: appending to nil yields a non-nil
slice. -/
def goAppend {α : Type} (o : Option (List α)) (x : α) : Option (List α) :=
  some (o.getD [] ++ [x])

/-- The cluster client interface readTopic drives (sarama.Client); every
call either fails or returns a value. -/
structure Client where
  partitions : String → Except String (List Int)
  getOffset : String → Int → OffsetKind → Except String Int
  leader : String → Int → Except String String
  replicas : String → Int → Except String (List Int)
  inSyncReplicas : String → Int → Except String (List Int)

/-- The topicCmd fields consulted by readTopic and the pipeline,
src/topic.go lines 26-37. -/
structure TopicCmd where
  client : Client
  partitions : Bool
  leaders : Bool
  replicas : Bool

/-- The loop body of readTopic for one partition id, src/topic.go lines
200-228: oldest offset, newest offset, then leader address when the leaders
flag is set, then replicas and in-sync replicas when the replicas flag is
set; the first failing call aborts.  Fields not requested keep their Go zero
values ("" and nil). -/
def readPartition (cmd : TopicCmd) (name : String) (p : Int) :
    Except String partition := do
  let old ← cmd.client.getOffset name p OffsetKind.oldest
  let nw ← cmd.client.getOffset name p OffsetKind.newest
  let led ← if cmd.leaders then cmd.client.leader name p else pure ""
  if cmd.replicas then
    let reps ← cmd.client.replicas name p
    let isrs ← cmd.client.inSyncReplicas name p
    pure ⟨p, old, nw, led, some reps, some isrs⟩
  else
    pure ⟨p, old, nw, led, none, none⟩

/-- The partition loop of readTopic, src/topic.go lines 200-229, appending
each completed partition record in order. -/
def readTopicLoop (cmd : TopicCmd) (name : String) :
    List Int → topic → Except String topic
  | [], top => pure top
  | p :: rest, top => do
      let np ← readPartition cmd name p
      readTopicLoop cmd name rest { top with Partitions := goAppend top.Partitions np }

/-- Embedding of readTopic, src/topic.go lines 184-232.  Go returns a
(topic, error) pair and the only caller discards the topic whenever the
error is non-nil, so failing paths are Except.error. -/
def readTopic (cmd : TopicCmd) (name : String) : Except String topic :=
  if !cmd.partitions then pure ⟨name, none⟩
  else match cmd.client.partitions name with
    | .error e => .error e
    | .ok ps => readTopicLoop cmd name ps ⟨name, none⟩

theorem readTopicLoop_name (cmd : TopicCmd) (name : String) :
    ∀ (ps : List Int) (top t : topic),
      readTopicLoop cmd name ps top = .ok t → t.Name = top.Name := by
  intro ps
  induction ps with
  | nil =>
      intro top t h
      cases h
      rfl
  | cons p rest ih =>
      intro top t h
      unfold readTopicLoop at h
      cases hp : readPartition cmd name p with
      | error e =>
          rw [hp] at h
          cases h
      | ok np =>
          rw [hp] at h
          exact ih { top with Partitions := goAppend top.Partitions np } t h

theorem readTopic_name (cmd : TopicCmd) (name : String) (t : topic)
    (h : readTopic cmd name = .ok t) : t.Name = name := by
  unfold readTopic at h
  by_cases hp : cmd.partitions
  · rw [hp] at h
    simp only [Bool.not_true, Bool.false_eq_true, if_false] at h
    cases hps : cmd.client.partitions name with
    | error e => rw [hps] at h; cases h
    | ok ps =>
        rw [hps] at h
        exact readTopicLoop_name cmd name ps _ t h
  · rw [Bool.not_eq_true] at hp
    rw [hp] at h
    cases h
    rfl

/-- A client whose every call succeeds and that reports no partitions for
any topic; used to build concrete runs. -/
def emptyClient : Client :=
  ⟨fun _ => .ok [], fun _ _ _ => .ok 0, fun _ _ => .ok "", fun _ _ => .ok [],
    fun _ _ => .ok []⟩

/-- topicCmd with every detail flag off. -/
def noDetailCmd : TopicCmd := ⟨emptyClient, false, false, false⟩

/-- topicCmd requesting partition detail against a cluster whose topics have
zero partitions. -/
def partitionsOnEmptyCmd : TopicCmd := ⟨emptyClient, true, false, false⟩

/-- Claim C9 counterexample: with the partition flag disabled the record for
topic "t" carries no partitions field (the nil slice, omitted by omitempty),
but a zero-partition topic with the flag enabled produces exactly the same
record, so the two are not distinguishable. -/
theorem flag_off_equals_zero_partitions :
    readTopic noDetailCmd "t" = .ok ⟨"t", none⟩ ∧
    readTopic partitionsOnEmptyCmd "t" = readTopic noDetailCmd "t" :=
  ⟨rfl, rfl⟩

/-- Claim C9 (amended): a topic requested with the partition flag disabled
yields a record with no partitions field at all; however it is not
distinguishable from the record of a zero-partition topic requested with the
flag enabled, which is identical (its partitions slice also stays nil). -/
theorem no_partitions_field_when_flag_off (cmd cmd2 : TopicCmd) (name : String)
    (h : cmd.partitions = false) (h2 : cmd2.partitions = true)
    (hp : cmd2.client.partitions name = .ok []) :
    readTopic cmd name = .ok ⟨name, none⟩ ∧
    readTopic cmd2 name = readTopic cmd name := by
  unfold readTopic
  rw [h, h2, hp]
  exact ⟨rfl, rfl⟩

theorem no_partitions_field_when_flag_off_witness :
    noDetailCmd.partitions = false ∧ partitionsOnEmptyCmd.partitions = true ∧
    partitionsOnEmptyCmd.client.partitions "t" = .ok [] ∧
    (readTopic noDetailCmd "t" = .ok ⟨"t", none⟩ ∧
      readTopic partitionsOnEmptyCmd "t" = readTopic noDetailCmd "t") :=
  ⟨rfl, rfl, rfl,
    no_partitions_field_when_flag_off noDetailCmd partitionsOnEmptyCmd "t" rfl rfl rfl⟩

/-! ### Part 3: the concurrent metadata pipeline of src/topic.go

run (lines 129-166) spawns one serializer goroutine `print(out, cmd.pretty)`
and one worker goroutine `cmd.print(tn, out)` per topic name, waits on a
sync.WaitGroup, and returns; it never closes `out`, and no statement in it
or in the worker body calls os.Exit (failf) for a per-topic failure.

The worker body topicCmd.print (lines 168-182) runs readTopic; on error it
writes the topic name to stderr and returns; on success it builds a
printContext carrying the record and a fresh `done` channel, sends it on the
unbuffered channel `out` (a rendezvous, blocking until the serializer
receives), and then blocks on `<-ctx.done`.

The serializer — the package-level `print` function and the printContext
type — is not part of src/.  Modelled from the spec: the serializer is the
only task that touches the output sink; it receives completed records one at
a time over the synchronization channel, writes one full record to the sink,
signals write-complete on the per-submission acknowledgment channel, and
terminates only by draining a closed input channel.  The sink write is
modelled as two separate events (first and last byte of the record) so that
interleaving of two records' bytes is expressible. -/

/-- A byte-level event on the output sink: the first or the last byte of one
record's serialized form. -/
inductive SinkEvt
  | wbegin (n : String)
  | wend (n : String)
  deriving DecidableEq

/-- Control state of one worker goroutine running topicCmd.print. -/
inductive WorkerPC
  | start
  | submit (rec : topic)
  | waitAck
  | doneOk
  | doneErr
  deriving DecidableEq

/-- Control state of the serializer goroutine.  `writing rec i b` holds the
record received from worker i; b is true once the record's first byte is on
the sink. -/
inductive SerPC
  | idle
  | writing (rec : topic) (i : Nat) (begun : Bool)
  | acking (i : Nat)
  | terminated
  deriving DecidableEq

/-- A global state of the pipeline: the worker goroutines with their names,
the serializer, the bytes on the output sink, the topic names reported on
stderr, whether the `out` channel has been closed, and whether os.Exit was
called during the run. -/
structure PState where
  workers : List (String × WorkerPC)
  ser : SerPC
  sink : List SinkEvt
  errlog : List String
  closed : Bool
  exited : Bool
  deriving DecidableEq

/-- The state in which run has spawned the serializer and one worker per
topic name (src/topic.go lines 155-164). -/
def initState (names : List String) : PState :=
  ⟨names.map (fun n => (n, WorkerPC.start)), SerPC.idle, [], [], false, false⟩

/-- One interleaving step of the pipeline.  workFail and workOk are the two
branches of topicCmd.print after readTopic; handoff is the rendezvous of
`out <- ctx` with the serializer's receive; writeBegin and writeEnd are the
serializer's write of one record to the sink; ack is the serializer's signal
on ctx.done, waking the blocked worker; serClose is the serializer's exit
path, enabled only once `out` is closed. -/
inductive Step (cmd : TopicCmd) : PState → PState → Prop
  | workFail (s : PState) (i : Nat) (n e : String)
      (hw : s.workers[i]? = some (n, WorkerPC.start))
      (hr : readTopic cmd n = .error e) :
      Step cmd s { s with workers := s.workers.set i (n, WorkerPC.doneErr),
                          errlog := s.errlog ++ [n] }
  | workOk (s : PState) (i : Nat) (n : String) (rec : topic)
      (hw : s.workers[i]? = some (n, WorkerPC.start))
      (hr : readTopic cmd n = .ok rec) :
      Step cmd s { s with workers := s.workers.set i (n, WorkerPC.submit rec) }
  | handoff (s : PState) (i : Nat) (n : String) (rec : topic)
      (hw : s.workers[i]? = some (n, WorkerPC.submit rec))
      (hs : s.ser = SerPC.idle) :
      Step cmd s { s with workers := s.workers.set i (n, WorkerPC.waitAck),
                          ser := SerPC.writing rec i false }
  | writeBegin (s : PState) (rec : topic) (i : Nat)
      (hs : s.ser = SerPC.writing rec i false) :
      Step cmd s { s with ser := SerPC.writing rec i true,
                          sink := s.sink ++ [SinkEvt.wbegin rec.Name] }
  | writeEnd (s : PState) (rec : topic) (i : Nat)
      (hs : s.ser = SerPC.writing rec i true) :
      Step cmd s { s with ser := SerPC.acking i,
                          sink := s.sink ++ [SinkEvt.wend rec.Name] }
  | ack (s : PState) (i : Nat) (n : String)
      (hs : s.ser = SerPC.acking i)
      (hw : s.workers[i]? = some (n, WorkerPC.waitAck)) :
      Step cmd s { s with ser := SerPC.idle,
                          workers := s.workers.set i (n, WorkerPC.doneOk) }
  | serClose (s : PState)
      (hs : s.ser = SerPC.idle) (hc : s.closed = true) :
      Step cmd s { s with ser := SerPC.terminated }

/-- The states a run over the given topic names can reach. -/
inductive Reach (cmd : TopicCmd) (names : List String) : PState → Prop
  | init : Reach cmd names (initState names)
  | step {s s' : PState} : Reach cmd names s → Step cmd s s' → Reach cmd names s'

/-- All workers have returned and the serializer is back waiting on its
input channel: the point where run's wg.Wait() (line 165) unblocks. -/
def Terminal (s : PState) : Prop :=
  (∀ w ∈ s.workers, w.2 = WorkerPC.doneOk ∨ w.2 = WorkerPC.doneErr) ∧
  s.ser = SerPC.idle

instance (s : PState) : Decidable (Terminal s) :=
  inferInstanceAs (Decidable ((∀ w ∈ s.workers,
    w.2 = WorkerPC.doneOk ∨ w.2 = WorkerPC.doneErr) ∧ s.ser = SerPC.idle))

/-- The sink consists of complete records: each record's first byte is
immediately followed by its last byte, nothing of another record between. -/
def sinkClosedB : List SinkEvt → Bool
  | [] => true
  | SinkEvt.wbegin n :: SinkEvt.wend m :: rest => n == m && sinkClosedB rest
  | _ => false

/-- The sink is a sequence of complete records, possibly followed by the
opening byte of the record currently being written. -/
def sinkOkB : List SinkEvt → Bool
  | [] => true
  | [SinkEvt.wbegin _] => true
  | SinkEvt.wbegin n :: SinkEvt.wend m :: rest => n == m && sinkOkB rest
  | _ => false

theorem sinkOkB_of_closed : ∀ {l : List SinkEvt}, sinkClosedB l = true → sinkOkB l = true := by
  intro l
  induction l using sinkClosedB.induct with
  | case1 => intro _; rfl
  | case2 n m rest ih =>
      intro h
      simp only [sinkClosedB, Bool.and_eq_true] at h
      simp only [sinkOkB, Bool.and_eq_true]
      exact ⟨h.1, ih h.2⟩
  | case3 l h1 h2 =>
      intro h
      unfold sinkClosedB at h
      split at h
      · exact absurd rfl h1
      · exact absurd rfl (h2 _ _ _)
      · simp at h

theorem sinkOkB_append_open (n : String) :
    ∀ {l : List SinkEvt}, sinkClosedB l = true →
      sinkOkB (l ++ [SinkEvt.wbegin n]) = true := by
  intro l
  induction l using sinkClosedB.induct with
  | case1 => intro _; rfl
  | case2 a b rest ih =>
      intro h
      simp only [sinkClosedB, Bool.and_eq_true] at h
      simp only [List.cons_append, sinkOkB, Bool.and_eq_true]
      exact ⟨h.1, ih h.2⟩
  | case3 l h1 h2 =>
      intro h
      unfold sinkClosedB at h
      split at h
      · exact absurd rfl h1
      · exact absurd rfl (h2 _ _ _)
      · simp at h

theorem sinkClosedB_append_close (n : String) :
    ∀ {l : List SinkEvt}, sinkClosedB l = true →
      sinkClosedB (l ++ [SinkEvt.wbegin n, SinkEvt.wend n]) = true := by
  intro l
  induction l using sinkClosedB.induct with
  | case1 =>
      intro _
      simp [sinkClosedB]
  | case2 a b rest ih =>
      intro h
      simp only [sinkClosedB, Bool.and_eq_true] at h
      simp only [List.cons_append, sinkClosedB, Bool.and_eq_true]
      exact ⟨h.1, ih h.2⟩
  | case3 l h1 h2 =>
      intro h
      unfold sinkClosedB at h
      split at h
      · exact absurd rfl h1
      · exact absurd rfl (h2 _ _ _)
      · simp at h

theorem getElem?_some_lt {α : Type} {l : List α} {i : Nat} {a : α}
    (h : l[i]? = some a) : i < l.length :=
  (List.getElem?_eq_some.mp h).1

theorem set_same {α : Type} : ∀ {l : List α} {i : Nat} {a : α},
    l[i]? = some a → l.set i a = l := by
  intro l
  induction l with
  | nil => intro i a h; cases h
  | cons x xs ih =>
      intro i a h
      cases i with
      | zero =>
          simp only [List.getElem?_cons_zero, Option.some.injEq] at h
          simp [List.set, h]
      | succ j =>
          simp only [List.getElem?_cons_succ] at h
          simp [List.set, ih h]

theorem map_fst_set {l : List (String × WorkerPC)} {i : Nat} {n : String}
    {pc pc' : WorkerPC} (h : l[i]? = some (n, pc)) :
    (l.set i (n, pc')).map Prod.fst = l.map Prod.fst := by
  rw [List.map_set]
  exact set_same (by rw [List.getElem?_map, h]; rfl)

theorem countP_set {α : Type} (p : α → Bool) :
    ∀ (l : List α) (i : Nat) (a b : α), l[i]? = some b →
      (l.set i a).countP p + (if p b then 1 else 0) =
        l.countP p + (if p a then 1 else 0) := by
  intro l
  induction l with
  | nil => intro i a b h; cases h
  | cons x xs ih =>
      intro i a b h
      cases i with
      | zero =>
          simp only [List.getElem?_cons_zero, Option.some.injEq] at h
          subst h
          simp only [List.set, List.countP_cons]
          omega
      | succ j =>
          simp only [List.getElem?_cons_succ] at h
          simp only [List.set, List.countP_cons]
          have := ih j a b h
          omega

theorem workers_get_set_cases {l : List (String × WorkerPC)} {i j : Nat}
    {a w : String × WorkerPC} (hi : i < l.length)
    (hj : (l.set i a)[j]? = some w) :
    (j = i ∧ w = a) ∨ (j ≠ i ∧ l[j]? = some w) := by
  by_cases h : j = i
  · subst h
    rw [List.getElem?_set_self hi] at hj
    exact Or.inl ⟨rfl, (Option.some.inj hj).symm⟩
  · exact Or.inr ⟨h, by rwa [List.getElem?_set_ne (fun hh => h hh.symm)] at hj⟩

/-- Only worker i can be blocked on the acknowledgment handshake. -/
def OnlyWaiterL (workers : List (String × WorkerPC)) (i : Nat) : Prop :=
  ∀ (j : Nat) (m : String), workers[j]? = some (m, WorkerPC.waitAck) → j = i

/-- What each serializer control state implies about the workers and the
sink: while idle the sink holds only complete records and nobody waits for
an acknowledgment; while holding worker i's record, that worker is blocked
on the handshake, the record is the one its readTopic produced, and the sink
is complete except for the possibly open current record; while acking, the
record of the waiting worker is completely on the sink; the exit path is
never reached. -/
def SerInvL (cmd : TopicCmd) (workers : List (String × WorkerPC))
    (sink : List SinkEvt) : SerPC → Prop
  | SerPC.idle =>
      sinkClosedB sink = true ∧
      ∀ (j : Nat) (m : String), workers[j]? = some (m, WorkerPC.waitAck) → False
  | SerPC.writing rec i false =>
      sinkClosedB sink = true ∧
      (∃ n, workers[i]? = some (n, WorkerPC.waitAck) ∧ readTopic cmd n = .ok rec) ∧
      OnlyWaiterL workers i
  | SerPC.writing rec i true =>
      (∃ pre, sink = pre ++ [SinkEvt.wbegin rec.Name] ∧ sinkClosedB pre = true) ∧
      (∃ n, workers[i]? = some (n, WorkerPC.waitAck) ∧ readTopic cmd n = .ok rec) ∧
      OnlyWaiterL workers i
  | SerPC.acking i =>
      sinkClosedB sink = true ∧
      (∃ n rec, workers[i]? = some (n, WorkerPC.waitAck) ∧
        readTopic cmd n = .ok rec ∧ SinkEvt.wend n ∈ sink) ∧
      OnlyWaiterL workers i
  | SerPC.terminated => False

theorem SerInvL_set_non_waiter {cmd : TopicCmd}
    {workers : List (String × WorkerPC)} {sink : List SinkEvt} {ser : SerPC}
    {i : Nat} {n : String} {pc pc' : WorkerPC}
    (hw : workers[i]? = some (n, pc))
    (hpc : pc ≠ WorkerPC.waitAck) (hpc' : pc' ≠ WorkerPC.waitAck)
    (hs : SerInvL cmd workers sink ser) :
    SerInvL cmd (workers.set i (n, pc')) sink ser := by
  have hlen : i < workers.length := getElem?_some_lt hw
  cases ser with
  | idle =>
      obtain ⟨h1, h2⟩ := hs
      refine ⟨h1, fun j m hj => ?_⟩
      rcases workers_get_set_cases hlen hj with ⟨_, hv⟩ | ⟨_, hv⟩
      · exact hpc' (congrArg Prod.snd hv).symm
      · exact h2 j m hv
  | writing rec k b =>
      have hki : k ≠ i := by
        intro hk
        subst hk
        cases b with
        | false =>
            obtain ⟨_, ⟨m, hm, _⟩, _⟩ := hs
            rw [hw] at hm
            exact hpc (congrArg Prod.snd (Option.some.inj hm))
        | true =>
            obtain ⟨_, ⟨m, hm, _⟩, _⟩ := hs
            rw [hw] at hm
            exact hpc (congrArg Prod.snd (Option.some.inj hm))
      cases b with
      | false =>
          obtain ⟨h1, ⟨m, hm, hr⟩, h3⟩ := hs
          refine ⟨h1, ⟨m, ?_, hr⟩, fun j mm hj => ?_⟩
          · rwa [List.getElem?_set_ne (fun hh => hki hh.symm)]
          · rcases workers_get_set_cases hlen hj with ⟨_, hv⟩ | ⟨_, hv⟩
            · exact absurd (congrArg Prod.snd hv).symm hpc'
            · exact h3 j mm hv
      | true =>
          obtain ⟨h1, ⟨m, hm, hr⟩, h3⟩ := hs
          refine ⟨h1, ⟨m, ?_, hr⟩, fun j mm hj => ?_⟩
          · rwa [List.getElem?_set_ne (fun hh => hki hh.symm)]
          · rcases workers_get_set_cases hlen hj with ⟨_, hv⟩ | ⟨_, hv⟩
            · exact absurd (congrArg Prod.snd hv).symm hpc'
            · exact h3 j mm hv
  | acking k =>
      have hki : k ≠ i := by
        intro hk
        subst hk
        obtain ⟨_, ⟨m, rec, hm, _⟩, _⟩ := hs
        rw [hw] at hm
        exact hpc (congrArg Prod.snd (Option.some.inj hm))
      obtain ⟨h1, ⟨m, rec, hm, hr, hsnk⟩, h3⟩ := hs
      refine ⟨h1, ⟨m, rec, ?_, hr, hsnk⟩, fun j mm hj => ?_⟩
      · rwa [List.getElem?_set_ne (fun hh => hki hh.symm)]
      · rcases workers_get_set_cases hlen hj with ⟨_, hv⟩ | ⟨_, hv⟩
        · exact absurd (congrArg Prod.snd hv).symm hpc'
        · exact h3 j mm hv
  | terminated => exact hs

/-- The inductive invariant of the pipeline. -/
structure PInv (cmd : TopicCmd) (names : List String) (s : PState) : Prop where
  names_eq : s.workers.map Prod.fst = names
  submit_ok : ∀ (i : Nat) (n : String) (rec : topic),
    s.workers[i]? = some (n, WorkerPC.submit rec) →
    readTopic cmd n = .ok rec
  doneErr_err : ∀ (i : Nat) (n : String), s.workers[i]? = some (n, WorkerPC.doneErr) →
    (∃ e, readTopic cmd n = .error e) ∧ n ∈ s.errlog
  doneOk_ok : ∀ (i : Nat) (n : String), s.workers[i]? = some (n, WorkerPC.doneOk) →
    (∃ rec, readTopic cmd n = .ok rec) ∧ SinkEvt.wend n ∈ s.sink
  ser_inv : SerInvL cmd s.workers s.sink s.ser
  closed_false : s.closed = false
  exited_false : s.exited = false
  errlog_len : s.errlog.length =
    s.workers.countP (fun w => w.2 == WorkerPC.doneErr)
  sink_names : ∀ n : String, (SinkEvt.wbegin n ∈ s.sink ∨ SinkEvt.wend n ∈ s.sink) →
    ∃ rec, readTopic cmd n = .ok rec

theorem inv_init (cmd : TopicCmd) (names : List String) :
    PInv cmd names (initState names) := by
  refine ⟨?_, ?_, ?_, ?_, ?_, rfl, rfl, ?_, ?_⟩
  · show (names.map fun n => (n, WorkerPC.start)).map Prod.fst = names
    rw [List.map_map]
    exact List.map_id names
  · intro i n rec h
    simp only [initState, List.getElem?_map] at h
    cases hn : names[i]? with
    | none => rw [hn] at h; cases h
    | some m => rw [hn] at h; simp at h
  · intro i n h
    simp only [initState, List.getElem?_map] at h
    cases hn : names[i]? with
    | none => rw [hn] at h; cases h
    | some m => rw [hn] at h; simp at h
  · intro i n h
    simp only [initState, List.getElem?_map] at h
    cases hn : names[i]? with
    | none => rw [hn] at h; cases h
    | some m => rw [hn] at h; simp at h
  · refine ⟨rfl, fun j m hj => ?_⟩
    simp only [initState, List.getElem?_map] at hj
    cases hn : names[j]? with
    | none => rw [hn] at hj; cases hj
    | some mm => rw [hn] at hj; simp at hj
  · simp only [initState, List.length_nil]
    rw [eq_comm, List.countP_eq_zero]
    intro w hw
    rcases List.mem_map.mp hw with ⟨n, _, hn⟩
    subst hn
    simp
  · intro n h
    simp only [initState] at h
    rcases h with h | h <;> cases h

theorem inv_step {cmd : TopicCmd} {names : List String} {s s' : PState}
    (hi : PInv cmd names s) (hst : Step cmd s s') : PInv cmd names s' := by
  cases hst with
  | workFail i n e hw hr =>
      have hlen : i < s.workers.length := getElem?_some_lt hw
      refine ⟨(map_fst_set hw).trans hi.names_eq, ?_, ?_, ?_, ?_,
        hi.closed_false, hi.exited_false, ?_, hi.sink_names⟩
      · intro j m rec2 hj
        rcases workers_get_set_cases hlen hj with ⟨_, hv⟩ | ⟨_, hv⟩
        · exact WorkerPC.noConfusion (congrArg Prod.snd hv)
        · exact hi.submit_ok j m rec2 hv
      · intro j m hj
        rcases workers_get_set_cases hlen hj with ⟨_, hv⟩ | ⟨_, hv⟩
        · have hmn : m = n := congrArg Prod.fst hv
          refine ⟨⟨e, by rw [hmn]; exact hr⟩, ?_⟩
          rw [hmn]
          exact List.mem_append_right _ (List.mem_singleton.mpr rfl)
        · have h := hi.doneErr_err j m hv
          exact ⟨h.1, List.mem_append_left _ h.2⟩
      · intro j m hj
        rcases workers_get_set_cases hlen hj with ⟨_, hv⟩ | ⟨_, hv⟩
        · exact WorkerPC.noConfusion (congrArg Prod.snd hv)
        · exact hi.doneOk_ok j m hv
      · exact SerInvL_set_non_waiter hw (fun h => WorkerPC.noConfusion h)
          (fun h => WorkerPC.noConfusion h) hi.ser_inv
      · have hc := countP_set (fun w => w.2 == WorkerPC.doneErr) s.workers i
          (n, WorkerPC.doneErr) (n, WorkerPC.start) hw
        simp only [List.length_append, List.length_singleton, hi.errlog_len]
        simp at hc
        omega
  | workOk i n rec hw hr =>
      have hlen : i < s.workers.length := getElem?_some_lt hw
      refine ⟨(map_fst_set hw).trans hi.names_eq, ?_, ?_, ?_, ?_,
        hi.closed_false, hi.exited_false, ?_, hi.sink_names⟩
      · intro j m rec2 hj
        rcases workers_get_set_cases hlen hj with ⟨_, hv⟩ | ⟨_, hv⟩
        · have h1 : m = n := congrArg Prod.fst hv
          have h2 : WorkerPC.submit rec2 = WorkerPC.submit rec :=
            congrArg Prod.snd hv
          rw [h1, WorkerPC.submit.inj h2]
          exact hr
        · exact hi.submit_ok j m rec2 hv
      · intro j m hj
        rcases workers_get_set_cases hlen hj with ⟨_, hv⟩ | ⟨_, hv⟩
        · exact WorkerPC.noConfusion (congrArg Prod.snd hv)
        · exact hi.doneErr_err j m hv
      · intro j m hj
        rcases workers_get_set_cases hlen hj with ⟨_, hv⟩ | ⟨_, hv⟩
        · exact WorkerPC.noConfusion (congrArg Prod.snd hv)
        · exact hi.doneOk_ok j m hv
      · exact SerInvL_set_non_waiter hw (fun h => WorkerPC.noConfusion h)
          (fun h => WorkerPC.noConfusion h) hi.ser_inv
      · have hc := countP_set (fun w => w.2 == WorkerPC.doneErr) s.workers i
          (n, WorkerPC.submit rec) (n, WorkerPC.start) hw
        dsimp only
        rw [hi.errlog_len]
        simp at hc
        omega
  | handoff i n rec hw hs =>
      have hlen : i < s.workers.length := getElem?_some_lt hw
      have hser := hi.ser_inv
      rw [hs] at hser
      simp only [SerInvL] at hser
      obtain ⟨hclosed, hnowait⟩ := hser
      refine ⟨(map_fst_set hw).trans hi.names_eq, ?_, ?_, ?_, ?_,
        hi.closed_false, hi.exited_false, ?_, hi.sink_names⟩
      · intro j m rec2 hj
        rcases workers_get_set_cases hlen hj with ⟨_, hv⟩ | ⟨_, hv⟩
        · exact WorkerPC.noConfusion (congrArg Prod.snd hv)
        · exact hi.submit_ok j m rec2 hv
      · intro j m hj
        rcases workers_get_set_cases hlen hj with ⟨_, hv⟩ | ⟨_, hv⟩
        · exact WorkerPC.noConfusion (congrArg Prod.snd hv)
        · exact hi.doneErr_err j m hv
      · intro j m hj
        rcases workers_get_set_cases hlen hj with ⟨_, hv⟩ | ⟨_, hv⟩
        · exact WorkerPC.noConfusion (congrArg Prod.snd hv)
        · exact hi.doneOk_ok j m hv
      · simp only [SerInvL]
        refine ⟨hclosed, ⟨n, ?_, hi.submit_ok i n rec hw⟩, ?_⟩
        · exact List.getElem?_set_self hlen
        · intro j m hj
          rcases workers_get_set_cases hlen hj with ⟨hji, _⟩ | ⟨_, hv⟩
          · exact hji
          · exact absurd hv (fun hh => hnowait j m hh)
      · have hc := countP_set (fun w => w.2 == WorkerPC.doneErr) s.workers i
          (n, WorkerPC.waitAck) (n, WorkerPC.submit rec) hw
        dsimp only
        rw [hi.errlog_len]
        simp at hc
        omega
  | writeBegin rec i hs =>
      have hser := hi.ser_inv
      rw [hs] at hser
      simp only [SerInvL] at hser
      obtain ⟨hclosed, hex, huniq⟩ := hser
      refine ⟨hi.names_eq, hi.submit_ok, hi.doneErr_err, ?_, ?_,
        hi.closed_false, hi.exited_false, hi.errlog_len, ?_⟩
      · intro j m hj
        have h := hi.doneOk_ok j m hj
        exact ⟨h.1, List.mem_append_left _ h.2⟩
      · simp only [SerInvL]
        exact ⟨⟨s.sink, rfl, hclosed⟩, hex, huniq⟩
      · intro m hm
        obtain ⟨n, hn, hr⟩ := hex
        have hname : rec.Name = n := readTopic_name cmd n rec hr
        rcases hm with hm | hm
        · rcases List.mem_append.mp hm with h | h
          · exact hi.sink_names m (Or.inl h)
          · have hmr : m = rec.Name := by simpa using h
            exact ⟨rec, by rw [hmr, hname]; exact hr⟩
        · rcases List.mem_append.mp hm with h | h
          · exact hi.sink_names m (Or.inr h)
          · simp at h
  | writeEnd rec i hs =>
      have hser := hi.ser_inv
      rw [hs] at hser
      simp only [SerInvL] at hser
      obtain ⟨⟨pre, hpre, hpreclosed⟩, hex, huniq⟩ := hser
      obtain ⟨n, hn, hr⟩ := hex
      have hname : rec.Name = n := readTopic_name cmd n rec hr
      refine ⟨hi.names_eq, hi.submit_ok, hi.doneErr_err, ?_, ?_,
        hi.closed_false, hi.exited_false, hi.errlog_len, ?_⟩
      · intro j m hj
        have h := hi.doneOk_ok j m hj
        exact ⟨h.1, List.mem_append_left _ h.2⟩
      · simp only [SerInvL]
        refine ⟨?_, ⟨n, rec, hn, hr, ?_⟩, huniq⟩
        · rw [hpre, List.append_assoc, List.singleton_append]
          exact sinkClosedB_append_close rec.Name hpreclosed
        · rw [← hname]
          exact List.mem_append_right _ (List.mem_singleton.mpr rfl)
      · intro m hm
        rcases hm with hm | hm
        · rcases List.mem_append.mp hm with h | h
          · exact hi.sink_names m (Or.inl h)
          · simp at h
        · rcases List.mem_append.mp hm with h | h
          · exact hi.sink_names m (Or.inr h)
          · have hmr : m = rec.Name := by simpa using h
            exact ⟨rec, by rw [hmr, hname]; exact hr⟩
  | ack i n hs hw =>
      have hlen : i < s.workers.length := getElem?_some_lt hw
      have hser := hi.ser_inv
      rw [hs] at hser
      simp only [SerInvL] at hser
      obtain ⟨hclosed, ⟨n2, rec, hn2, hr, hsnk⟩, huniq⟩ := hser
      have hn2n : n2 = n := by
        rw [hw] at hn2
        exact (congrArg Prod.fst (Option.some.inj hn2)).symm
      subst hn2n
      refine ⟨(map_fst_set hw).trans hi.names_eq, ?_, ?_, ?_, ?_,
        hi.closed_false, hi.exited_false, ?_, hi.sink_names⟩
      · intro j m rec2 hj
        rcases workers_get_set_cases hlen hj with ⟨_, hv⟩ | ⟨_, hv⟩
        · exact WorkerPC.noConfusion (congrArg Prod.snd hv)
        · exact hi.submit_ok j m rec2 hv
      · intro j m hj
        rcases workers_get_set_cases hlen hj with ⟨_, hv⟩ | ⟨_, hv⟩
        · exact WorkerPC.noConfusion (congrArg Prod.snd hv)
        · exact hi.doneErr_err j m hv
      · intro j m hj
        rcases workers_get_set_cases hlen hj with ⟨_, hv⟩ | ⟨_, hv⟩
        · have hmn : m = n2 := congrArg Prod.fst hv
          exact ⟨⟨rec, by rw [hmn]; exact hr⟩, by rw [hmn]; exact hsnk⟩
        · exact hi.doneOk_ok j m hv
      · simp only [SerInvL]
        refine ⟨hclosed, ?_⟩
        intro j m hj
        rcases workers_get_set_cases hlen hj with ⟨_, hv⟩ | ⟨hji, hv⟩
        · exact WorkerPC.noConfusion (congrArg Prod.snd hv)
        · exact hji (huniq j m hv)
      · have hc := countP_set (fun w => w.2 == WorkerPC.doneErr) s.workers i
          (n2, WorkerPC.doneOk) (n2, WorkerPC.waitAck) hw
        dsimp only
        rw [hi.errlog_len]
        simp at hc
        omega
  | serClose hs hc =>
      rw [hi.closed_false] at hc
      exact Bool.noConfusion hc

theorem inv_reach {cmd : TopicCmd} {names : List String} {s : PState}
    (h : Reach cmd names s) : PInv cmd names s := by
  induction h with
  | init => exact inv_init cmd names
  | step hr hst ih => exact inv_step ih hst

theorem mem_names_worker {cmd : TopicCmd} {names : List String} {s : PState}
    (hi : PInv cmd names s) {n : String} (hn : n ∈ names) :
    ∃ (i : Nat) (pc : WorkerPC), s.workers[i]? = some (n, pc) := by
  rw [← hi.names_eq] at hn
  obtain ⟨w, hw, hfst⟩ := List.mem_map.mp hn
  obtain ⟨i, hwi⟩ := List.mem_iff_getElem?.mp hw
  cases w with
  | mk wn wpc =>
      cases hfst
      exact ⟨i, wpc, hwi⟩

theorem terminal_ok_in_sink {cmd : TopicCmd} {names : List String} {s : PState}
    (hr : Reach cmd names s) (ht : Terminal s) {n : String} (hn : n ∈ names)
    {rec : topic} (hok : readTopic cmd n = .ok rec) :
    SinkEvt.wend n ∈ s.sink := by
  have hi := inv_reach hr
  obtain ⟨i, pc, hwi⟩ := mem_names_worker hi hn
  have hdone := ht.1 _ (List.mem_iff_getElem?.mpr ⟨i, hwi⟩)
  rcases hdone with h | h
  · have := hi.doneOk_ok i n (by rw [hwi, show pc = WorkerPC.doneOk from h])
    exact this.2
  · have := hi.doneErr_err i n (by rw [hwi, show pc = WorkerPC.doneErr from h])
    obtain ⟨⟨e, he⟩, _⟩ := this
    rw [hok] at he
    cases he

theorem terminal_err_reported {cmd : TopicCmd} {names : List String}
    {s : PState} (hr : Reach cmd names s) (ht : Terminal s) {n : String}
    (hn : n ∈ names) {e : String} (he : readTopic cmd n = .error e) :
    n ∈ s.errlog ∧ SinkEvt.wbegin n ∉ s.sink ∧ SinkEvt.wend n ∉ s.sink := by
  have hi := inv_reach hr
  obtain ⟨i, pc, hwi⟩ := mem_names_worker hi hn
  have hdone := ht.1 _ (List.mem_iff_getElem?.mpr ⟨i, hwi⟩)
  have hmem : n ∈ s.errlog := by
    rcases hdone with h | h
    · have := hi.doneOk_ok i n (by rw [hwi, show pc = WorkerPC.doneOk from h])
      obtain ⟨⟨rec, hrec⟩, _⟩ := this
      rw [he] at hrec
      cases hrec
    · exact (hi.doneErr_err i n (by rw [hwi, show pc = WorkerPC.doneErr from h])).2
  refine ⟨hmem, fun hb => ?_, fun hw => ?_⟩
  · obtain ⟨rec, hrec⟩ := hi.sink_names n (Or.inl hb)
    rw [he] at hrec
    cases hrec
  · obtain ⟨rec, hrec⟩ := hi.sink_names n (Or.inr hw)
    rw [he] at hrec
    cases hrec

theorem no_deadlock {cmd : TopicCmd} {names : List String} {s : PState}
    (hr : Reach cmd names s) (hnt : ¬ Terminal s) : ∃ s', Step cmd s s' := by
  have hi := inv_reach hr
  cases hs : s.ser with
  | idle =>
      have hnall : ¬ ∀ w ∈ s.workers,
          w.2 = WorkerPC.doneOk ∨ w.2 = WorkerPC.doneErr := by
        intro hall
        exact hnt ⟨hall, hs⟩
      push_neg at hnall
      obtain ⟨w, hw, hwpc⟩ := hnall
      obtain ⟨i, hwi⟩ := List.mem_iff_getElem?.mp hw
      cases w with
      | mk wn wpc =>
          cases wpc with
          | start =>
              cases hrt : readTopic cmd wn with
              | error e => exact ⟨_, Step.workFail s i wn e hwi hrt⟩
              | ok rec => exact ⟨_, Step.workOk s i wn rec hwi hrt⟩
          | submit rec => exact ⟨_, Step.handoff s i wn rec hwi hs⟩
          | waitAck =>
              have hser := hi.ser_inv
              rw [hs] at hser
              simp only [SerInvL] at hser
              exact absurd hwi (fun hh => hser.2 i wn hh)
          | doneOk => exact absurd rfl hwpc.1
          | doneErr => exact absurd rfl hwpc.2
  | writing rec i b =>
      cases b with
      | false => exact ⟨_, Step.writeBegin s rec i hs⟩
      | true => exact ⟨_, Step.writeEnd s rec i hs⟩
  | acking i =>
      have hser := hi.ser_inv
      rw [hs] at hser
      simp only [SerInvL] at hser
      obtain ⟨_, ⟨n, rec, hn, _, _⟩, _⟩ := hser
      exact ⟨_, Step.ack s i n hs hn⟩
  | terminated =>
      have hser := hi.ser_inv
      rw [hs] at hser
      simp only [SerInvL] at hser

theorem reach_sinkOk {cmd : TopicCmd} {names : List String} {s : PState}
    (hr : Reach cmd names s) : sinkOkB s.sink = true := by
  have hi := inv_reach hr
  have hser := hi.ser_inv
  cases hs : s.ser with
  | idle =>
      rw [hs] at hser
      simp only [SerInvL] at hser
      exact sinkOkB_of_closed hser.1
  | writing rec i b =>
      rw [hs] at hser
      cases b with
      | false =>
          simp only [SerInvL] at hser
          exact sinkOkB_of_closed hser.1
      | true =>
          simp only [SerInvL] at hser
          obtain ⟨⟨pre, hpre, hcl⟩, _, _⟩ := hser
          rw [hpre]
          exact sinkOkB_append_open rec.Name hcl
  | acking i =>
      rw [hs] at hser
      simp only [SerInvL] at hser
      exact sinkOkB_of_closed hser.1
  | terminated =>
      rw [hs] at hser
      simp only [SerInvL] at hser

/-- The record the pipeline produces for topic "t" with all detail flags
off. -/
def recT : topic := ⟨"t", none⟩

/-- The state after a complete run of the pipeline over the single topic
"t" with every detail flag off: the worker finished, its record is fully on
the sink, the serializer waits again, and the channel was never closed. -/
def finalT : PState :=
  ⟨[("t", WorkerPC.doneOk)], SerPC.idle,
    [SinkEvt.wbegin "t", SinkEvt.wend "t"], [], false, false⟩

theorem reach_finalT : Reach noDetailCmd ["t"] finalT := by
  have r0 : Reach noDetailCmd ["t"] (initState ["t"]) := Reach.init
  have r1 := Reach.step r0 (Step.workOk (initState ["t"]) 0 "t" recT rfl rfl)
  have r2 := Reach.step r1 (Step.handoff _ 0 "t" recT rfl rfl)
  have r3 := Reach.step r2 (Step.writeBegin _ recT 0 rfl)
  have r4 := Reach.step r3 (Step.writeEnd _ recT 0 rfl)
  exact Reach.step r4 (Step.ack _ 0 "t" rfl rfl)

/-- A client that fails the partition listing of topic "bad" and reports no
partitions for any other topic. -/
def failBadClient : Client :=
  ⟨fun n => if n = "bad" then .error "boom" else .ok [], fun _ _ _ => .ok 0,
    fun _ _ => .ok "", fun _ _ => .ok [], fun _ _ => .ok []⟩

/-- topicCmd requesting partition detail against failBadClient. -/
def failBadCmd : TopicCmd := ⟨failBadClient, true, false, false⟩

/-- The record for topic "good" under failBadCmd. -/
def recGood : topic := ⟨"good", none⟩

/-- The state after a complete run over topics "good" and "bad" where the
retrieval for "bad" failed: the sibling's record is fully on the sink, the
failure was reported, and nothing recorded a process exit. -/
def finalGB : PState :=
  ⟨[("good", WorkerPC.doneOk), ("bad", WorkerPC.doneErr)], SerPC.idle,
    [SinkEvt.wbegin "good", SinkEvt.wend "good"], ["bad"], false, false⟩

theorem reach_finalGB : Reach failBadCmd ["good", "bad"] finalGB := by
  have r0 : Reach failBadCmd ["good", "bad"] (initState ["good", "bad"]) :=
    Reach.init
  have r1 := Reach.step r0
    (Step.workFail (initState ["good", "bad"]) 1 "bad" "boom" rfl rfl)
  have r2 := Reach.step r1 (Step.workOk _ 0 "good" recGood rfl rfl)
  have r3 := Reach.step r2 (Step.handoff _ 0 "good" recGood rfl rfl)
  have r4 := Reach.step r3 (Step.writeBegin _ recGood 0 rfl)
  have r5 := Reach.step r4 (Step.writeEnd _ recGood 0 rfl)
  exact Reach.step r5 (Step.ack _ 0 "good" rfl rfl)

/-- Claim C5: exactly one serializer task owns the output sink.  In every
reachable state the sink is a sequence of complete records, at most followed
by the opening byte of the record currently being written — no two records'
bytes ever interleave — and a worker that has completed the submission
protocol has its record fully written, since it stayed blocked on the
acknowledgment until the write finished.  Moreover the only steps that
change the sink are taken by the serializer while it holds a record received
over the shared channel: workers have no sink-writing step. -/
theorem serializer_owns_sink :
    (∀ (cmd : TopicCmd) (names : List String) (s : PState), Reach cmd names s →
      sinkOkB s.sink = true ∧
      ∀ (i : Nat) (n : String), s.workers[i]? = some (n, WorkerPC.doneOk) →
        SinkEvt.wend n ∈ s.sink) ∧
    (∀ (cmd : TopicCmd) (s s' : PState), Step cmd s s' → s.sink ≠ s'.sink →
      ∃ (rec : topic) (i : Nat) (b : Bool), s.ser = SerPC.writing rec i b) := by
  constructor
  · intro cmd names s hr
    refine ⟨reach_sinkOk hr, fun i n h => ?_⟩
    exact ((inv_reach hr).doneOk_ok i n h).2
  · intro cmd s s' hst hne
    cases hst with
    | workFail i n e hw hr => exact absurd rfl hne
    | workOk i n rec hw hr => exact absurd rfl hne
    | handoff i n rec hw hs => exact absurd rfl hne
    | writeBegin rec i hs => exact ⟨rec, i, false, hs⟩
    | writeEnd rec i hs => exact ⟨rec, i, true, hs⟩
    | ack i n hs hw => exact absurd rfl hne
    | serClose hs hc => exact absurd rfl hne

theorem serializer_owns_sink_witness :
    sinkOkB finalT.sink = true ∧ SinkEvt.wend "t" ∈ finalT.sink :=
  ⟨(serializer_owns_sink.1 noDetailCmd ["t"] finalT reach_finalT).1,
    (serializer_owns_sink.1 noDetailCmd ["t"] finalT reach_finalT).2 0 "t" rfl⟩

/-- Claim C6: in every complete run, a topic whose metadata retrieval failed
at any step is reported by name on the diagnostic stream and no part of a
record for it — not even a partial one — is on the sink, while every topic
whose retrieval succeeded has its record fully emitted; moreover no
reachable non-terminal state is stuck, so one topic's failure never halts
the sibling workers or the run. -/
theorem topic_failure_isolated :
    (∀ (cmd : TopicCmd) (names : List String) (s : PState),
      Reach cmd names s → Terminal s →
      ∀ n ∈ names,
        (∀ e, readTopic cmd n = .error e →
          n ∈ s.errlog ∧ SinkEvt.wbegin n ∉ s.sink ∧ SinkEvt.wend n ∉ s.sink) ∧
        (∀ rec, readTopic cmd n = .ok rec → SinkEvt.wend n ∈ s.sink)) ∧
    (∀ (cmd : TopicCmd) (names : List String) (s : PState),
      Reach cmd names s → ¬ Terminal s → ∃ s', Step cmd s s') := by
  constructor
  · intro cmd names s hr ht n hn
    exact ⟨fun e he => terminal_err_reported hr ht hn he,
      fun rec hok => terminal_ok_in_sink hr ht hn hok⟩
  · intro cmd names s hr hnt
    exact no_deadlock hr hnt

theorem topic_failure_isolated_witness :
    ("bad" ∈ finalGB.errlog ∧ SinkEvt.wbegin "bad" ∉ finalGB.sink ∧
      SinkEvt.wend "bad" ∉ finalGB.sink) ∧
    SinkEvt.wend "good" ∈ finalGB.sink := by
  have h := topic_failure_isolated.1 failBadCmd ["good", "bad"] finalGB
    reach_finalGB (by decide)
  exact ⟨(h "bad" (by decide)).1 "boom" rfl,
    (h "good" (by decide)).2 recGood rfl⟩

/-- Claim C7 counterexample: a complete run over the single topic "t" — its
worker finished, its record emitted, wg.Wait() unblocked — reaches a
terminal state in which the serializer's input channel was never closed and
the serializer has neither drained nor terminated: it is blocked waiting for
a next submission.  run (src/topic.go lines 129-166) returns after
wg.Wait() without any close(out). -/
theorem out_channel_closed_cex :
    Reach noDetailCmd ["t"] finalT ∧ Terminal finalT ∧
    ¬ (finalT.closed = true ∨ finalT.ser = SerPC.terminated) :=
  ⟨reach_finalT, by decide, by decide⟩

/-- Claim C7 (amended): after all workers are known to have finished, run
returns without closing the serializer's input channel, and the serializer
never terminates: in every reachable state of every run the channel is
unclosed and the serializer task is still live (it outlives run and dies
only with the process). -/
theorem out_channel_never_closed (cmd : TopicCmd) (names : List String)
    (s : PState) (h : Reach cmd names s) :
    s.closed = false ∧ s.ser ≠ SerPC.terminated := by
  have hi := inv_reach h
  refine ⟨hi.closed_false, fun ht => ?_⟩
  have hser := hi.ser_inv
  rw [ht] at hser
  simp only [SerInvL] at hser

theorem out_channel_never_closed_witness :
    finalT.closed = false ∧ finalT.ser ≠ SerPC.terminated :=
  out_channel_never_closed noDetailCmd ["t"] finalT reach_finalT

/-- True when readTopic fails for this topic under this command. -/
def topicFails (cmd : TopicCmd) (n : String) : Bool :=
  match readTopic cmd n with
  | .error _ => true
  | .ok _ => false

/-- Claim C8 counterexample: a complete run over topics "good" and "bad" in
which "bad" fails.  The failure count is exactly 1 and the successful
topic's record is on the sink, but the run performs no process-exit action
at all — the process exit status stays 0 and does not reflect the failed
topic — and run, which returns no values, hands no (emittedCount,
errorCount) pair to its caller. -/
theorem exit_status_not_reflected_cex :
    Reach failBadCmd ["good", "bad"] finalGB ∧ Terminal finalGB ∧
    finalGB.errlog.length = 1 ∧ SinkEvt.wend "good" ∈ finalGB.sink ∧
    finalGB.exited = false :=
  ⟨reach_finalGB, by decide, rfl, by decide, rfl⟩

/-- Claim C8 (amended): run returns no counts to its caller and a per-topic
failure never touches the process exit status (failf, the only exiting
routine, is not on the per-topic failure path); still, failures do not
suppress the successful topics' output, and in every complete run the
number of error reports equals the number of failed topics — exactly 1 when
exactly one topic failed. -/
theorem error_count_without_exit (cmd : TopicCmd) (names : List String)
    (s : PState) (hr : Reach cmd names s) (ht : Terminal s) :
    s.exited = false ∧
    s.errlog.length = names.countP (topicFails cmd) ∧
    ∀ n ∈ names, ∀ rec, readTopic cmd n = .ok rec → SinkEvt.wend n ∈ s.sink := by
  have hi := inv_reach hr
  refine ⟨hi.exited_false, ?_, fun n hn rec hok => terminal_ok_in_sink hr ht hn hok⟩
  rw [hi.errlog_len, ← hi.names_eq, List.countP_map]
  apply List.countP_congr
  intro w hw
  obtain ⟨i, hwi⟩ := List.mem_iff_getElem?.mp hw
  have hdone := ht.1 w hw
  cases w with
  | mk wn wpc =>
      rcases hdone with h | h
      · rw [show wpc = WorkerPC.doneOk from h] at hwi
        obtain ⟨⟨rec, hrec⟩, _⟩ := hi.doneOk_ok i wn hwi
        have e1 : ((wn, WorkerPC.doneOk).2 == WorkerPC.doneErr) = false := rfl
        have e2 : topicFails cmd wn = false := by
          unfold topicFails
          rw [hrec]
        rw [show wpc = WorkerPC.doneOk from h, e1]
        simp [Function.comp, e2]
      · rw [show wpc = WorkerPC.doneErr from h] at hwi
        obtain ⟨⟨e, he⟩, _⟩ := hi.doneErr_err i wn hwi
        have e1 : ((wn, WorkerPC.doneErr).2 == WorkerPC.doneErr) = true := rfl
        have e2 : topicFails cmd wn = true := by
          unfold topicFails
          rw [he]
        rw [show wpc = WorkerPC.doneErr from h, e1]
        simp [Function.comp, e2]

theorem error_count_without_exit_witness :
    finalGB.exited = false ∧
    finalGB.errlog.length = ["good", "bad"].countP (topicFails failBadCmd) ∧
    SinkEvt.wend "good" ∈ finalGB.sink := by
  have h := error_count_without_exit failBadCmd ["good", "bad"] finalGB
    reach_finalGB (by decide)
  exact ⟨h.1, h.2.1, h.2.2 "good" (by decide) recGood rfl⟩

/-! ### Part 4: the topic-name filter of run, src/topic.go lines 148-153

run keeps a listed topic name iff cmd.filter.MatchString(name) is true,
where cmd.filter was built by regexp.Compile(args.filter) in parseArgs
(lines 102-106; the default pattern is "").  The regular-expression engine
is the Go standard library, external to this repository; its documented
contract is that MatchString reports whether the string CONTAINS any match
of the expression — an unanchored search — and that the empty pattern
compiles to an expression matching the empty string.  That contract is
modelled by a small regular-expression syntax with the standard anchored
semantics and an explicit unanchored containment wrapper. -/

/-- Regular expression syntax; emptyStr is the compiled form of the default
empty pattern "". -/
inductive Regex
  | emptyStr
  | lit (c : Char)
  | cat (a b : Regex)
  | alt (a b : Regex)
  | star (a : Regex)

/-- Anchored match semantics of a regular expression. -/
inductive RMatch : Regex → List Char → Prop
  | emptyStr : RMatch Regex.emptyStr []
  | lit (c : Char) : RMatch (Regex.lit c) [c]
  | cat {a b : Regex} {s1 s2 : List Char} :
      RMatch a s1 → RMatch b s2 → RMatch (Regex.cat a b) (s1 ++ s2)
  | altL {a b : Regex} {s : List Char} : RMatch a s → RMatch (Regex.alt a b) s
  | altR {a b : Regex} {s : List Char} : RMatch b s → RMatch (Regex.alt a b) s
  | starNil {a : Regex} : RMatch (Regex.star a) []
  | starCons {a : Regex} {s1 s2 : List Char} :
      RMatch a s1 → RMatch (Regex.star a) s2 → RMatch (Regex.star a) (s1 ++ s2)

/-- Go's MatchString contract: the string contains a match of the
expression — the search is unanchored, and the matched substring may be
empty. -/
def containsMatch (re : Regex) (s : List Char) : Prop :=
  ∃ pre mid post : List Char, s = pre ++ mid ++ post ∧ RMatch re mid

/-- The filter loop of run, src/topic.go lines 148-153: keep exactly the
listed names the compiled matcher accepts. -/
def filterTopics (accept : String → Bool) (all : List String) : List String :=
  all.filter accept

/-- Claim C10: a listed topic name is handed to the pipeline iff the
compiled filter expression matches some (possibly empty) substring of the
name — the unanchored search of the regexp engine, not a full-string match
— and, since the default empty pattern matches the empty substring of any
name, with the default filter every listed topic is included. -/
theorem filter_unanchored :
    (∀ (accept : String → Bool) (re : Regex),
      (∀ a : String, accept a = true ↔ containsMatch re a.data) →
      ∀ (all : List String) (a : String),
        a ∈ filterTopics accept all ↔ a ∈ all ∧ containsMatch re a.data) ∧
    (∀ s : List Char, containsMatch Regex.emptyStr s) := by
  constructor
  · intro accept re hagree all a
    rw [filterTopics, List.mem_filter, hagree a]
  · intro s
    exact ⟨[], [], s, rfl, RMatch.emptyStr⟩

theorem filter_unanchored_witness :
    ("x" ∈ filterTopics (fun _ => true) ["x", "y"] ↔
      "x" ∈ ["x", "y"] ∧ containsMatch Regex.emptyStr "x".data) ∧
    containsMatch Regex.emptyStr "hello".data :=
  ⟨filter_unanchored.1 (fun _ => true) Regex.emptyStr
      (fun a => ⟨fun _ => filter_unanchored.2 a.data, fun _ => rfl⟩)
      ["x", "y"] "x",
    filter_unanchored.2 "hello".data⟩

end KT
